import Mathlib

/-!
# FrameMover — verification of the engine and UI against the specification

FrameMover moves image files whose filename stem ends with one of a set of
caller-supplied numeric suffixes from a source tree to a destination tree,
preserving relative structure, skipping content duplicates (by digest) and
resolving name collisions with `-1`, `-2`, … inserted before the extension.

The repository's visible surface is the React shell (`src/App.tsx`); the
Rust engine (`src-tauri/src/engine/`) is not part of the visible sources,
so the engine components (SuffixSet, Scanner, Matcher, ContentHasher,
DedupIndex, CollisionResolver, Mover, Orchestrator) are modelled from the
specification.  UI-level definitions (`addLog`, the progress listener, the
Start/Cancel buttons' behaviour) are translated directly from `App.tsx`.
-/

namespace FrameMover

/-! ## Filename stem / extension splitting

A filename is split at its final dot: the stem is everything before the
last `.`, the extension everything after it.  A name without a dot has an
empty extension. -/

/-- Split a character list at the last `'.'`: `(stem, extension)`. -/
def splitLastDot : List Char → List Char × List Char
  | [] => ([], [])
  | c :: cs =>
    if cs.contains '.' then
      let p := splitLastDot cs
      (c :: p.1, p.2)
    else if c = '.' then ([], cs)
    else (c :: cs, [])

/-- Filename stem: the filename without its final extension. -/
def stemOf (name : String) : String := String.mk (splitLastDot name.data).1

/-- Filename extension: the part after the final dot (empty if no dot). -/
def extOf (name : String) : String := String.mk (splitLastDot name.data).2

/-! ## Matcher

Modelled from the spec: pure decision `FileCandidate → MatchDecision`.
The extension check is case-insensitive against a fixed set of image
extensions; the suffix check requires the stem to end with at least one
member of the suffix set, as an exact trailing character sequence. -/

/-- The fixed set of accepted image extensions (lower case). -/
def imageExts : List String := ["jpg", "jpeg", "png", "heic", "gif", "tiff", "webp"]

/-- ASCII lower-casing of a single character. -/
def lowerChar (c : Char) : Char :=
  match c with
  | 'A' => 'a' | 'B' => 'b' | 'C' => 'c' | 'D' => 'd' | 'E' => 'e'
  | 'F' => 'f' | 'G' => 'g' | 'H' => 'h' | 'I' => 'i' | 'J' => 'j'
  | 'K' => 'k' | 'L' => 'l' | 'M' => 'm' | 'N' => 'n' | 'O' => 'o'
  | 'P' => 'p' | 'Q' => 'q' | 'R' => 'r' | 'S' => 's' | 'T' => 't'
  | 'U' => 'u' | 'V' => 'v' | 'W' => 'w' | 'X' => 'x' | 'Y' => 'y'
  | 'Z' => 'z' | c => c

/-- ASCII lower-casing of a string. -/
def lowerStr (s : String) : String := String.mk (s.data.map lowerChar)

/-- Modelled from the spec: the Matcher (engine component missing from the
visible sources).  Accepts a filename iff its extension, lower-cased, is in
`imageExts` and its stem ends with some member of the suffix set. -/
def matcher (S : List String) (name : String) : Bool :=
  imageExts.contains (lowerStr (extOf name)) &&
    S.any (fun s => s.data.isSuffixOf (stemOf name).data)

/-! ## Decimal rendering of naturals (for collision suffixes `-1`, `-2`, …) -/

/-- The decimal digit character for `d < 10`. -/
def digitChar (d : Nat) : Char :=
  match d with
  | 0 => '0' | 1 => '1' | 2 => '2' | 3 => '3' | 4 => '4'
  | 5 => '5' | 6 => '6' | 7 => '7' | 8 => '8' | _ => '9'

/-- Decimal digits, most significant first; `fuel` bounds the recursion
depth (any `fuel ≥ n` gives the exact decimal numeral of `n`). -/
def natCharsAux : Nat → Nat → List Char
  | 0, n => [digitChar n]
  | fuel + 1, n =>
    if n < 10 then [digitChar n]
    else natCharsAux fuel (n / 10) ++ [digitChar (n % 10)]

/-- Decimal digits of a natural number, most significant first. -/
def natChars (n : Nat) : List Char := natCharsAux n n

/-- Decimal string of a natural number. -/
def natStr (n : Nat) : String := String.mk (natChars n)

/-- Numeric value of a digit character. -/
def charVal (c : Char) : Nat := c.toNat - 48

/-- Value of a digit-character list read as a decimal numeral. -/
def charsVal (l : List Char) : Nat := l.foldl (fun a c => 10 * a + charVal c) 0

theorem charsVal_append_single (l : List Char) (c : Char) :
    charsVal (l ++ [c]) = 10 * charsVal l + charVal c := by
  simp [charsVal, List.foldl_append]

theorem charVal_digitChar {d : Nat} (h : d < 10) : charVal (digitChar d) = d := by
  interval_cases d <;> decide

theorem charsVal_foldl_init (l : List Char) (a : Nat) :
    l.foldl (fun a c => 10 * a + charVal c) a =
      a * 10 ^ l.length + charsVal l := by
  induction l generalizing a with
  | nil => simp [charsVal]
  | cons c cs ih =>
    simp only [List.foldl_cons, charsVal]
    rw [ih, ih (10 * 0 + charVal c)]
    ring_nf
    simp [Nat.pow_succ]
    ring

theorem charsVal_natCharsAux (fuel n : Nat) (hn : n ≤ fuel ∨ n < 10) :
    charsVal (natCharsAux fuel n) = n := by
  induction fuel generalizing n with
  | zero =>
    have h10 : n < 10 := by
      rcases hn with h | h
      · omega
      · exact h
    rw [natCharsAux]
    simp [charsVal, charVal_digitChar h10]
  | succ fuel ih =>
    rw [natCharsAux]
    by_cases h : n < 10
    · rw [if_pos h]
      simp [charsVal, charVal_digitChar h]
    · rw [if_neg h]
      have hdiv : n / 10 ≤ fuel := by omega
      rw [charsVal_append_single, ih (n / 10) (Or.inl hdiv),
        charVal_digitChar (Nat.mod_lt _ (by omega))]
      omega

theorem charsVal_natChars (n : Nat) : charsVal (natChars n) = n :=
  charsVal_natCharsAux n n (Or.inl (Nat.le_refl n))

theorem natChars_injective : Function.Injective natChars := by
  intro a b h
  have := charsVal_natChars a
  rw [h, charsVal_natChars] at this
  omega

theorem natStr_injective : Function.Injective natStr := by
  intro a b h
  exact natChars_injective (congrArg String.data h)

/-! ## CollisionResolver

Modelled from the spec: given a desired destination name occupied by a file
of different content, produce an alternate name by inserting `-k`
immediately before the extension, with the smallest `k ≥ 1` whose name is
unused; a free desired name is returned unchanged. -/

/-- The alternate name `stem-k.ext` (or `stem-k` when there is no extension). -/
def altName (stem ext : String) (k : Nat) : String :=
  stem ++ "-" ++ natStr k ++ (if ext = "" then "" else "." ++ ext)

/-- Search upward from `k` for the first index whose `altName` is not
occupied, trying at most `fuel` indices. -/
def searchFree (occ : List String) (stem ext : String) : Nat → Nat → Nat
  | 0, k => k
  | fuel + 1, k =>
    if occ.contains (altName stem ext k) then searchFree occ stem ext fuel (k + 1)
    else k

/-- Modelled from the spec: the CollisionResolver (engine component missing
from the visible sources).  Returns the desired name unchanged when it is
free; otherwise the smallest `stem-k.ext` (`k ≥ 1`) not occupied. -/
def resolveName (occ : List String) (desired : String) : String :=
  if occ.contains desired then
    let stem := stemOf desired
    let ext := extOf desired
    altName stem ext (searchFree occ stem ext (occ.length + 1) 1)
  else desired

theorem altName_injective (stem ext : String) :
    Function.Injective (altName stem ext) := by
  intro a b h
  apply natStr_injective
  have hd : (altName stem ext a).data = (altName stem ext b).data := by rw [h]
  simp only [altName, String.data_append] at hd
  have h2 := List.append_cancel_right hd
  have h3 := List.append_cancel_left h2
  exact String.ext h3

/-- Pigeonhole: among `occ.length + 1` consecutive candidate names, at least
one is not occupied. -/
theorem exists_free_altName (occ : List String) (stem ext : String) (k0 : Nat) :
    ∃ j, k0 ≤ j ∧ j < k0 + (occ.length + 1) ∧
      occ.contains (altName stem ext j) = false := by
  by_contra hall
  push_neg at hall
  have hocc : ∀ j, k0 ≤ j → j < k0 + (occ.length + 1) →
      altName stem ext j ∈ occ := by
    intro j h1 h2
    have := hall j h1 h2
    simpa [List.contains, List.elem_iff] using this
  set L : List String :=
    (List.range (occ.length + 1)).map (fun i => altName stem ext (k0 + i)) with hL
  have hnodup : L.Nodup := by
    refine List.Nodup.map ?_ (List.nodup_range _)
    intro a b hab
    have := altName_injective stem ext hab
    omega
  have hsub : L ⊆ occ := by
    intro x hx
    rw [hL, List.mem_map] at hx
    obtain ⟨i, hi, rfl⟩ := hx
    rw [List.mem_range] at hi
    exact hocc (k0 + i) (by omega) (by omega)
  have hlen : L.length = occ.length + 1 := by simp [hL]
  have := (hnodup.subperm hsub).length_le
  omega

theorem searchFree_correct (occ : List String) (stem ext : String) :
    ∀ fuel k, (∃ j, k ≤ j ∧ j < k + fuel ∧ occ.contains (altName stem ext j) = false) →
      k ≤ searchFree occ stem ext fuel k ∧
      occ.contains (altName stem ext (searchFree occ stem ext fuel k)) = false ∧
      ∀ j, k ≤ j → j < searchFree occ stem ext fuel k →
        occ.contains (altName stem ext j) = true := by
  intro fuel
  induction fuel with
  | zero =>
    intro k ⟨j, h1, h2, _⟩
    omega
  | succ fuel ih =>
    intro k ⟨j, h1, h2, hfree⟩
    rw [searchFree]
    by_cases hk : occ.contains (altName stem ext k) = true
    · rw [if_pos hk]
      have hjk : j ≠ k := by
        intro he; rw [he] at hfree; rw [hfree] at hk; exact Bool.noConfusion hk
      obtain ⟨hr1, hr2, hr3⟩ := ih (k + 1) ⟨j, by omega, by omega, hfree⟩
      refine ⟨by omega, hr2, ?_⟩
      intro i hi1 hi2
      by_cases hik : i = k
      · rw [hik]; exact hk
      · exact hr3 i (by omega) hi2
    · rw [if_neg hk]
      simp only [Bool.not_eq_true] at hk
      exact ⟨Nat.le_refl _, hk, fun j h1 h2 => absurd h2 (by omega)⟩

/-! ## Claim theorems for Matcher and CollisionResolver -/

/-- C2: For every suffix set `S` and filename `F`, the Matcher accepts `F`
iff `F`'s extension is a case-insensitive member of
{jpg, jpeg, png, heic, gif, tiff, webp} and `F`'s stem ends, as an exact
trailing character sequence, with at least one member of `S`; in
particular stem `IMG_7612` is accepted for suffix `612` and stem `123` for
suffix `23`. -/
theorem matcher_accepts_iff (S : List String) (F : String) :
    (matcher S F = true ↔
      lowerStr (extOf F) ∈ imageExts ∧ ∃ s ∈ S, s.data <:+ (stemOf F).data) ∧
    matcher ["612"] "IMG_7612.jpg" = true ∧
    matcher ["23"] "123.png" = true ∧
    matcher ["612"] "IMG_7612.JPG" = true := by
  refine ⟨?_, by decide, by decide, by decide⟩
  simp only [matcher, Bool.and_eq_true, List.any_eq_true, List.isSuffixOf_iff_suffix,
    List.contains, List.elem_iff]

/-- C4: When the desired destination name is occupied, the
CollisionResolver returns `stem-k.ext` for the smallest `k ≥ 1` whose name
is not occupied; when the desired name is free it returns it unchanged; a
first collision on `IMG_7612.jpg` yields `IMG_7612-1.jpg` and a second
yields `IMG_7612-2.jpg`. -/
theorem resolveName_spec (occ : List String) (desired : String) :
    (occ.contains desired = false → resolveName occ desired = desired) ∧
    (occ.contains desired = true →
      ∃ k, 1 ≤ k ∧
        resolveName occ desired = altName (stemOf desired) (extOf desired) k ∧
        occ.contains (altName (stemOf desired) (extOf desired) k) = false ∧
        ∀ j, 1 ≤ j → j < k →
          occ.contains (altName (stemOf desired) (extOf desired) j) = true) ∧
    resolveName ["IMG_7612.jpg"] "IMG_7612.jpg" = "IMG_7612-1.jpg" ∧
    resolveName ["IMG_7612.jpg", "IMG_7612-1.jpg"] "IMG_7612.jpg" = "IMG_7612-2.jpg" := by
  refine ⟨?_, ?_, by decide, by decide⟩
  · intro h
    rw [resolveName, if_neg (by rw [h]; exact Bool.noConfusion)]
  · intro h
    rw [resolveName, if_pos h]
    obtain ⟨j, hj1, hj2, hj3⟩ :=
      exists_free_altName occ (stemOf desired) (extOf desired) 1
    obtain ⟨h1, h2, h3⟩ :=
      searchFree_correct occ (stemOf desired) (extOf desired) (occ.length + 1) 1
        ⟨j, hj1, hj2, hj3⟩
    exact ⟨searchFree occ (stemOf desired) (extOf desired) (occ.length + 1) 1,
      h1, rfl, h2, h3⟩

/-- Witness for `resolveName_spec`: a free desired name is returned
unchanged. -/
theorem resolveName_spec_witness :
    resolveName ["other.jpg"] "IMG_7612.jpg" = "IMG_7612.jpg" :=
  (resolveName_spec ["other.jpg"] "IMG_7612.jpg").1 (by decide)

/-! ## Engine model (Orchestrator pipeline)

Modelled from the spec: the engine components (Scanner, ContentHasher,
DedupIndex, Mover, Orchestrator) are missing from the visible sources.
The Scanner's deterministic finite candidate sequence is a list; file
content (and, per the spec's accepted digest-equality assumption, its
content digest) is a natural number; the destination tree is a list of
files tagged with their destination directory.  The Orchestrator threads a
run state through the candidates: decisions (duplicate check, collision
resolution) read the `view` of the destination, which is updated for every
move decision; the real filesystem (`dest`, `srcMoved`, `moverCalls`) is
mutated only when `dryRun` is false; cancellation is a flag observed
between candidates, modelled as an optional count of candidates after
which it becomes visible. -/

/-- A scan candidate: destination-relative directory, filename, content. -/
structure Cand where
  dir : List String
  name : String
  content : Nat
deriving DecidableEq, Repr

/-- A file in the destination tree. -/
structure DFile where
  dir : List String
  name : String
  content : Nat
deriving DecidableEq, Repr

/-- Per-candidate outcome: moved (with final name), skipped as duplicate,
or rejected by the Matcher. -/
inductive Outcome where
  | moved (finalName : String)
  | skippedDup
  | rejected
deriving DecidableEq, Repr

/-- Content digests already present in one destination directory
(the DedupIndex view of that directory). -/
def dirDigests (fs : List DFile) (d : List String) : List Nat :=
  (fs.filter (fun f => f.dir = d)).map (fun f => f.content)

/-- Names occupied in one destination directory. -/
def occupiedNames (fs : List DFile) (d : List String) : List String :=
  (fs.filter (fun f => f.dir = d)).map (fun f => f.name)

/-- A progress snapshot (the spec's snapshot schema). -/
structure Snap where
  phase : String
  currentFile : Option String
  scanned : Nat
  matched : Nat
  moved : Nat
  skippedDuplicates : Nat
  errors : Nat
  percent : Nat
deriving DecidableEq, Repr

/-- The Orchestrator's run state. -/
structure RunSt where
  scanned : Nat
  matched : Nat
  moved : Nat
  skippedDuplicates : Nat
  errors : Nat
  dest : List DFile
  view : List DFile
  srcMoved : List Cand
  moverCalls : Nat
  outcomes : List Outcome
  snaps : List Snap
deriving DecidableEq, Repr

/-- Percent heuristic during a run: monotone in `scanned`, capped below 100. -/
def runPercent (scanned : Nat) : Nat := min scanned 99

/-- Build a snapshot of the current state (percent jumps to 100 at `done`). -/
def mkSnap (ph : String) (cur : Option String) (st : RunSt) : Snap :=
  ⟨ph, cur, st.scanned, st.matched, st.moved, st.skippedDuplicates, st.errors,
    if ph = "done" then 100 else runPercent st.scanned⟩

/-- Process one candidate: count it, run the Matcher, consult the
DedupIndex on the mirrored destination directory, resolve collisions, and
move (really, or only in the `view` when `dryRun`). -/
def stepCand (S : List String) (dry : Bool) (st : RunSt) (c : Cand) : RunSt :=
  let st1 := { st with scanned := st.scanned + 1 }
  if matcher S c.name then
    let st2 := { st1 with matched := st1.matched + 1 }
    if (dirDigests st2.view c.dir).contains c.content then
      let st3 := { st2 with
        skippedDuplicates := st2.skippedDuplicates + 1,
        outcomes := st2.outcomes ++ [Outcome.skippedDup] }
      { st3 with snaps := st3.snaps ++ [mkSnap "hashing" (some c.name) st3] }
    else
      let fin := resolveName (occupiedNames st2.view c.dir) c.name
      let nf : DFile := ⟨c.dir, fin, c.content⟩
      let st3 := { st2 with
        moved := st2.moved + 1,
        view := st2.view ++ [nf],
        dest := if dry then st2.dest else st2.dest ++ [nf],
        srcMoved := if dry then st2.srcMoved else st2.srcMoved ++ [c],
        moverCalls := if dry then st2.moverCalls else st2.moverCalls + 1,
        outcomes := st2.outcomes ++ [Outcome.moved fin] }
      { st3 with snaps := st3.snaps ++ [mkSnap "moving" (some c.name) st3] }
  else
    let st2 := { st1 with outcomes := st1.outcomes ++ [Outcome.rejected] }
    { st2 with snaps := st2.snaps ++ [mkSnap "scanning" (some c.name) st2] }

/-- Terminal transition on Scanner exhaustion. -/
def finishDone (st : RunSt) : RunSt :=
  { st with snaps := st.snaps ++ [mkSnap "done" none st] }

/-- Terminal transition on observed cancellation. -/
def finishCancel (st : RunSt) : RunSt :=
  { st with snaps := st.snaps ++ [mkSnap "cancelled" none st] }

/-- The Orchestrator loop: drive the Scanner, checking the cancellation
flag between candidates.  `cancelIn = some n` means the flag becomes
observable after `n` further candidates. -/
def runLoop (S : List String) (dry : Bool) : Option Nat → List Cand → RunSt → RunSt
  | _, [], st => finishDone st
  | some 0, _ :: _, st => finishCancel st
  | some (n + 1), c :: cs, st => runLoop S dry (some n) cs (stepCand S dry st c)
  | none, c :: cs, st => runLoop S dry none cs (stepCand S dry st c)

/-- Initial run state: the DedupIndex view is seeded from the destination's
pre-existing state. -/
def initSt (dest0 : List DFile) : RunSt :=
  ⟨0, 0, 0, 0, 0, dest0, dest0, [], 0, [], []⟩

/-- Parameters and inputs of one run. -/
structure RunInput where
  suffixes : List String
  dryRun : Bool
  cancelAfter : Option Nat
  cands : List Cand
  dest0 : List DFile
deriving DecidableEq, Repr

/-- Modelled from the spec: the Orchestrator (engine component missing
from the visible sources), driving the whole pipeline over the Scanner's
candidate sequence. -/
def runEngine (inp : RunInput) : RunSt :=
  runLoop inp.suffixes inp.dryRun inp.cancelAfter inp.cands (initSt inp.dest0)

/-- The final emitted snapshot of a run. -/
def finalSnap (st : RunSt) : Snap := st.snaps.getLastD (mkSnap "idle" none (initSt []))

/-! ## Engine lemmas -/

/-- Without cancellation the loop is a fold over the candidates. -/
theorem runLoop_none (S : List String) (dry : Bool) (cs : List Cand) (st : RunSt) :
    runLoop S dry none cs st = finishDone (List.foldl (stepCand S dry) st cs) := by
  induction cs generalizing st with
  | nil => rfl
  | cons c cs ih => rw [runLoop, List.foldl_cons, ih]

/-- Cancellation observed before exhaustion truncates the fold. -/
theorem runLoop_some_lt (S : List String) (dry : Bool) (n : Nat) (cs : List Cand)
    (st : RunSt) (h : n < cs.length) :
    runLoop S dry (some n) cs st =
      finishCancel (List.foldl (stepCand S dry) st (cs.take n)) := by
  induction n generalizing cs st with
  | zero =>
    cases cs with
    | nil => simp at h
    | cons c cs => rfl
  | succ n ih =>
    cases cs with
    | nil => simp at h
    | cons c cs =>
      rw [runLoop, List.take_succ_cons, List.foldl_cons]
      exact ih cs (stepCand S dry st c) (by simpa using h)

/-- A cancellation flag that never becomes observable acts like none. -/
theorem runLoop_some_ge (S : List String) (dry : Bool) (n : Nat) (cs : List Cand)
    (st : RunSt) (h : cs.length ≤ n) :
    runLoop S dry (some n) cs st = finishDone (List.foldl (stepCand S dry) st cs) := by
  induction cs generalizing n st with
  | nil => cases n <;> rfl
  | cons c cs ih =>
    cases n with
    | zero => simp at h
    | succ n =>
      rw [runLoop, List.foldl_cons]
      exact ih n (stepCand S dry st c) (by simpa using h)

/-- The per-candidate decision, as a function of the pre-step view. -/
def ocOf (S : List String) (st : RunSt) (c : Cand) : Outcome :=
  if matcher S c.name then
    if (dirDigests st.view c.dir).contains c.content then Outcome.skippedDup
    else Outcome.moved (resolveName (occupiedNames st.view c.dir) c.name)
  else Outcome.rejected

theorem stepCand_outcomes (S : List String) (dry : Bool) (st : RunSt) (c : Cand) :
    (stepCand S dry st c).outcomes = st.outcomes ++ [ocOf S st c] := by
  unfold stepCand ocOf
  by_cases hm : matcher S c.name
  · by_cases hd : c.content ∈ dirDigests st.view c.dir
    · simp [hm, hd]
    · simp [hm, hd]
  · simp [hm]

theorem stepCand_scanned (S : List String) (dry : Bool) (st : RunSt) (c : Cand) :
    (stepCand S dry st c).scanned = st.scanned + 1 := by
  unfold stepCand
  by_cases hm : matcher S c.name
  · by_cases hd : c.content ∈ dirDigests st.view c.dir
    · simp [hm, hd]
    · simp [hm, hd]
  · simp [hm]

/-- In a dry run the filesystem and the Mover are untouched by a step. -/
theorem stepCand_dry (S : List String) (st : RunSt) (c : Cand) :
    (stepCand S true st c).dest = st.dest ∧
    (stepCand S true st c).srcMoved = st.srcMoved ∧
    (stepCand S true st c).moverCalls = st.moverCalls := by
  unfold stepCand
  by_cases hm : matcher S c.name
  · by_cases hd : c.content ∈ dirDigests st.view c.dir
    · simp [hm, hd]
    · simp [hm, hd]
  · simp [hm]

/-- The observable part of the state: everything except the real
filesystem effects. -/
def obs (st : RunSt) :
    Nat × Nat × Nat × Nat × Nat × List DFile × List Outcome × List Snap :=
  (st.scanned, st.matched, st.moved, st.skippedDuplicates, st.errors,
    st.view, st.outcomes, st.snaps)

/-- Decisions and counters do not depend on `dryRun`: a dry step and a real
step from observably equal states stay observably equal. -/
theorem stepCand_obs (S : List String) (c : Cand) (d₁ d₂ : Bool) (st₁ st₂ : RunSt)
    (h : obs st₁ = obs st₂) :
    obs (stepCand S d₁ st₁ c) = obs (stepCand S d₂ st₂ c) := by
  simp only [obs, Prod.mk.injEq] at h
  obtain ⟨h1, h2, h3, h4, h5, h6, h7, h8⟩ := h
  unfold stepCand
  by_cases hm : matcher S c.name
  · by_cases hd : c.content ∈ dirDigests st₁.view c.dir
    · simp [obs, mkSnap, hm, hd, h1, h2, h3, h4, h5, h7, h8, ← h6]
    · simp [obs, mkSnap, hm, hd, h1, h2, h3, h4, h5, h7, h8, ← h6]
  · simp [obs, mkSnap, hm, h1, h2, h3, h4, h5, h6, h7, h8]

theorem foldl_obs (S : List String) (cs : List Cand) (d₁ d₂ : Bool)
    (st₁ st₂ : RunSt) (h : obs st₁ = obs st₂) :
    obs (List.foldl (stepCand S d₁) st₁ cs) =
      obs (List.foldl (stepCand S d₂) st₂ cs) := by
  induction cs generalizing st₁ st₂ with
  | nil => simpa using h
  | cons c cs ih =>
    rw [List.foldl_cons, List.foldl_cons]
    exact ih _ _ (stepCand_obs S c d₁ d₂ st₁ st₂ h)

theorem foldl_dry (S : List String) (cs : List Cand) (st : RunSt) :
    (List.foldl (stepCand S true) st cs).dest = st.dest ∧
    (List.foldl (stepCand S true) st cs).srcMoved = st.srcMoved ∧
    (List.foldl (stepCand S true) st cs).moverCalls = st.moverCalls := by
  induction cs generalizing st with
  | nil => exact ⟨rfl, rfl, rfl⟩
  | cons c cs ih =>
    rw [List.foldl_cons]
    obtain ⟨ha, hb, hc⟩ := ih (stepCand S true st c)
    obtain ⟨da, db, dc⟩ := stepCand_dry S st c
    exact ⟨ha.trans da, hb.trans db, hc.trans dc⟩

/-- Fields of `finishDone` and `finishCancel` other than `snaps`. -/
theorem finishDone_fields (st : RunSt) :
    (finishDone st).scanned = st.scanned ∧ (finishDone st).matched = st.matched ∧
    (finishDone st).moved = st.moved ∧
    (finishDone st).skippedDuplicates = st.skippedDuplicates ∧
    (finishDone st).errors = st.errors ∧ (finishDone st).dest = st.dest ∧
    (finishDone st).view = st.view ∧ (finishDone st).srcMoved = st.srcMoved ∧
    (finishDone st).moverCalls = st.moverCalls ∧
    (finishDone st).outcomes = st.outcomes := by
  simp [finishDone]

theorem finishCancel_fields (st : RunSt) :
    (finishCancel st).scanned = st.scanned ∧ (finishCancel st).matched = st.matched ∧
    (finishCancel st).moved = st.moved ∧
    (finishCancel st).skippedDuplicates = st.skippedDuplicates ∧
    (finishCancel st).errors = st.errors ∧ (finishCancel st).dest = st.dest ∧
    (finishCancel st).view = st.view ∧ (finishCancel st).srcMoved = st.srcMoved ∧
    (finishCancel st).moverCalls = st.moverCalls ∧
    (finishCancel st).outcomes = st.outcomes := by
  simp [finishCancel]

/-- C1: A run with `dryRun = true` performs no filesystem mutation — the
destination equals its pre-run state, no source file is removed and the
Mover is never invoked — while all five counters equal those of the real
run on the same inputs. -/
theorem dryRun_no_mutation (S : List String) (ci : Option Nat) (cands : List Cand)
    (dest0 : List DFile) :
    (runEngine ⟨S, true, ci, cands, dest0⟩).dest = dest0 ∧
    (runEngine ⟨S, true, ci, cands, dest0⟩).srcMoved = [] ∧
    (runEngine ⟨S, true, ci, cands, dest0⟩).moverCalls = 0 ∧
    (runEngine ⟨S, true, ci, cands, dest0⟩).scanned =
      (runEngine ⟨S, false, ci, cands, dest0⟩).scanned ∧
    (runEngine ⟨S, true, ci, cands, dest0⟩).matched =
      (runEngine ⟨S, false, ci, cands, dest0⟩).matched ∧
    (runEngine ⟨S, true, ci, cands, dest0⟩).moved =
      (runEngine ⟨S, false, ci, cands, dest0⟩).moved ∧
    (runEngine ⟨S, true, ci, cands, dest0⟩).skippedDuplicates =
      (runEngine ⟨S, false, ci, cands, dest0⟩).skippedDuplicates ∧
    (runEngine ⟨S, true, ci, cands, dest0⟩).errors =
      (runEngine ⟨S, false, ci, cands, dest0⟩).errors := by
  have main : ∀ cs : List Cand,
      (finishDone (List.foldl (stepCand S true) (initSt dest0) cs)).dest = dest0 ∧
      (finishDone (List.foldl (stepCand S true) (initSt dest0) cs)).srcMoved = [] ∧
      (finishDone (List.foldl (stepCand S true) (initSt dest0) cs)).moverCalls = 0 ∧
      obs (List.foldl (stepCand S true) (initSt dest0) cs) =
        obs (List.foldl (stepCand S false) (initSt dest0) cs) := by
    intro cs
    obtain ⟨ha, hb, hc⟩ := foldl_dry S cs (initSt dest0)
    exact ⟨by simpa [finishDone] using ha, by simpa [finishDone] using hb,
      by simpa [finishDone] using hc, foldl_obs S cs true false _ _ rfl⟩
  have mainC : ∀ cs : List Cand,
      (finishCancel (List.foldl (stepCand S true) (initSt dest0) cs)).dest = dest0 ∧
      (finishCancel (List.foldl (stepCand S true) (initSt dest0) cs)).srcMoved = [] ∧
      (finishCancel (List.foldl (stepCand S true) (initSt dest0) cs)).moverCalls = 0 ∧
      obs (List.foldl (stepCand S true) (initSt dest0) cs) =
        obs (List.foldl (stepCand S false) (initSt dest0) cs) := by
    intro cs
    obtain ⟨ha, hb, hc⟩ := foldl_dry S cs (initSt dest0)
    exact ⟨by simpa [finishCancel] using ha, by simpa [finishCancel] using hb,
      by simpa [finishCancel] using hc, foldl_obs S cs true false _ _ rfl⟩
  simp only [runEngine]
  cases ci with
  | none =>
    rw [runLoop_none, runLoop_none]
    obtain ⟨ha, hb, hc, hobs⟩ := main cands
    simp only [obs, Prod.mk.injEq] at hobs
    obtain ⟨o1, o2, o3, o4, o5, _, _, _⟩ := hobs
    refine ⟨ha, hb, hc, ?_, ?_, ?_, ?_, ?_⟩ <;> simp [finishDone, o1, o2, o3, o4, o5]
  | some n =>
    by_cases h : n < cands.length
    · rw [runLoop_some_lt S true n cands _ h, runLoop_some_lt S false n cands _ h]
      obtain ⟨ha, hb, hc, hobs⟩ := mainC (cands.take n)
      simp only [obs, Prod.mk.injEq] at hobs
      obtain ⟨o1, o2, o3, o4, o5, _, _, _⟩ := hobs
      refine ⟨ha, hb, hc, ?_, ?_, ?_, ?_, ?_⟩ <;> simp [finishCancel, o1, o2, o3, o4, o5]
    · rw [runLoop_some_ge S true n cands _ (by omega), runLoop_some_ge S false n cands _ (by omega)]
      obtain ⟨ha, hb, hc, hobs⟩ := main cands
      simp only [obs, Prod.mk.injEq] at hobs
      obtain ⟨o1, o2, o3, o4, o5, _, _, _⟩ := hobs
      refine ⟨ha, hb, hc, ?_, ?_, ?_, ?_, ?_⟩ <;> simp [finishDone, o1, o2, o3, o4, o5]

/-! ## Snapshot invariants -/

theorem runPercent_le (a : Nat) : runPercent a ≤ 99 := by
  simp [runPercent]

theorem runPercent_mono {a b : Nat} (h : a ≤ b) : runPercent a ≤ runPercent b := by
  simp only [runPercent]
  omega

/-- Appending an element above every member preserves a chain. -/
theorem chain'_append_single {α : Type} {R : α → α → Prop} (l : List α) (a : α)
    (hc : List.Chain' R l) (ha : ∀ x ∈ l, R x a) : List.Chain' R (l ++ [a]) := by
  rw [List.chain'_append]
  refine ⟨hc, List.chain'_singleton a, ?_⟩
  intro x hx y hy
  simp only [List.head?_cons, Option.mem_def, Option.some.injEq] at hy
  subst hy
  exact ha x (List.mem_of_getLast?_eq_some hx)

/-- Invariant carried along the candidate fold: counters are consistent and
all snapshots emitted so far are within bounds and monotone in percent. -/
def SnapInv (st : RunSt) : Prop :=
  st.matched ≤ st.scanned ∧
  (∀ s ∈ st.snaps,
    s.matched ≤ s.scanned ∧ s.percent ≤ 100 ∧ s.percent ≤ runPercent st.scanned) ∧
  List.Chain' (fun a b => a.percent ≤ b.percent) st.snaps

theorem SnapInv_push (st' : RunSt) (ph : String) (cur : Option String)
    (hph : ¬ ph = "done") (base : RunSt) (hsc : st'.scanned = base.scanned + 1)
    (hsn : st'.snaps = base.snaps) (hm : st'.matched ≤ st'.scanned)
    (hbase : SnapInv base) :
    SnapInv { st' with snaps := st'.snaps ++ [mkSnap ph cur st'] } := by
  obtain ⟨b1, b2, b3⟩ := hbase
  have hstep : base.scanned ≤ st'.scanned := by omega
  refine ⟨hm, ?_, ?_⟩
  · intro s hs
    rcases List.mem_append.mp hs with hold | hnew
    · rw [hsn] at hold
      obtain ⟨p1, p2, p3⟩ := b2 s hold
      refine ⟨p1, p2, p3.trans (runPercent_mono ?_)⟩
      show base.scanned ≤ st'.scanned
      exact hstep
    · rcases List.mem_singleton.mp hnew with rfl
      simp only [mkSnap, if_neg hph]
      exact ⟨hm, (runPercent_le _).trans (by omega), Nat.le_refl _⟩
  · refine chain'_append_single _ _ (hsn ▸ b3) ?_
    intro x hx
    rw [hsn] at hx
    obtain ⟨_, _, p3⟩ := b2 x hx
    simp only [mkSnap, if_neg hph]
    exact p3.trans (runPercent_mono hstep)

theorem stepCand_SnapInv (S : List String) (dry : Bool) (st : RunSt) (c : Cand)
    (h : SnapInv st) : SnapInv (stepCand S dry st c) := by
  unfold stepCand
  by_cases hm : matcher S c.name
  · rw [if_pos hm]
    by_cases hd : c.content ∈ dirDigests st.view c.dir
    · rw [if_pos (by simp [hd])]
      exact SnapInv_push
        { st with scanned := st.scanned + 1, matched := st.matched + 1,
                  skippedDuplicates := st.skippedDuplicates + 1,
                  outcomes := st.outcomes ++ [Outcome.skippedDup] }
        "hashing" (some c.name) (by decide) st rfl rfl
        (Nat.succ_le_succ h.1) h
    · rw [if_neg (by simp [hd])]
      exact SnapInv_push
        { st with scanned := st.scanned + 1, matched := st.matched + 1,
                  moved := st.moved + 1,
                  view := st.view ++
                    [⟨c.dir, resolveName (occupiedNames st.view c.dir) c.name, c.content⟩],
                  dest := if dry then st.dest else st.dest ++
                    [⟨c.dir, resolveName (occupiedNames st.view c.dir) c.name, c.content⟩],
                  srcMoved := if dry then st.srcMoved else st.srcMoved ++ [c],
                  moverCalls := if dry then st.moverCalls else st.moverCalls + 1,
                  outcomes := st.outcomes ++
                    [Outcome.moved (resolveName (occupiedNames st.view c.dir) c.name)] }
        "moving" (some c.name) (by decide) st rfl rfl
        (Nat.succ_le_succ h.1) h
  · rw [if_neg hm]
    exact SnapInv_push
      { st with scanned := st.scanned + 1,
                outcomes := st.outcomes ++ [Outcome.rejected] }
      "scanning" (some c.name) (by decide) st rfl rfl
      (Nat.le_succ_of_le h.1) h

theorem foldl_SnapInv (S : List String) (dry : Bool) (cs : List Cand) (st : RunSt)
    (h : SnapInv st) : SnapInv (List.foldl (stepCand S dry) st cs) := by
  induction cs generalizing st with
  | nil => exact h
  | cons c cs ih => exact ih _ (stepCand_SnapInv S dry st c h)

/-- Bounds and monotonicity survive the terminal snapshot. -/
theorem SnapInv_finishDone (st : RunSt) (h : SnapInv st) :
    (∀ s ∈ (finishDone st).snaps, s.matched ≤ s.scanned ∧ s.percent ≤ 100) ∧
    List.Chain' (fun a b => a.percent ≤ b.percent) (finishDone st).snaps := by
  obtain ⟨h1, h2, h3⟩ := h
  constructor
  · intro s hs
    simp only [finishDone] at hs
    rcases List.mem_append.mp hs with hold | hnew
    · exact ⟨(h2 s hold).1, (h2 s hold).2.1⟩
    · rcases List.mem_singleton.mp hnew with rfl
      simp only [mkSnap, if_pos rfl]
      exact ⟨h1, Nat.le_refl _⟩
  · simp only [finishDone]
    refine chain'_append_single _ _ h3 ?_
    intro x hx
    obtain ⟨_, p2, _⟩ := h2 x hx
    simpa [mkSnap] using p2

theorem SnapInv_finishCancel (st : RunSt) (h : SnapInv st) :
    (∀ s ∈ (finishCancel st).snaps, s.matched ≤ s.scanned ∧ s.percent ≤ 100) ∧
    List.Chain' (fun a b => a.percent ≤ b.percent) (finishCancel st).snaps := by
  obtain ⟨h1, h2, h3⟩ := h
  constructor
  · intro s hs
    simp only [finishCancel] at hs
    rcases List.mem_append.mp hs with hold | hnew
    · exact ⟨(h2 s hold).1, (h2 s hold).2.1⟩
    · rcases List.mem_singleton.mp hnew with rfl
      simp only [mkSnap, if_neg (by decide : ¬ "cancelled" = "done")]
      exact ⟨h1, (runPercent_le _).trans (by omega)⟩
  · simp only [finishCancel]
    refine chain'_append_single _ _ h3 ?_
    intro x hx
    obtain ⟨_, _, p3⟩ := h2 x hx
    simp only [mkSnap, if_neg (by decide : ¬ "cancelled" = "done")]
    exact p3

theorem SnapInv_init (dest0 : List DFile) : SnapInv (initSt dest0) := by
  refine ⟨Nat.le_refl _, ?_, ?_⟩ <;> simp [initSt]

/-- C6: every snapshot emitted by a run has non-negative counters,
`matched ≤ scanned`, `percent` in `[0, 100]`, and the percents of the
run's snapshot sequence are non-decreasing. -/
theorem snapshot_invariants (inp : RunInput) (s : Snap)
    (hs : s ∈ (runEngine inp).snaps) :
    0 ≤ s.scanned ∧ 0 ≤ s.matched ∧ 0 ≤ s.moved ∧ 0 ≤ s.skippedDuplicates ∧
    0 ≤ s.errors ∧ s.matched ≤ s.scanned ∧ 0 ≤ s.percent ∧ s.percent ≤ 100 ∧
    List.Chain' (fun a b => a.percent ≤ b.percent) (runEngine inp).snaps := by
  obtain ⟨S, dry, ci, cands, dest0⟩ := inp
  simp only [runEngine] at hs ⊢
  have key : ∀ st' : RunSt,
      ((∀ x ∈ st'.snaps, x.matched ≤ x.scanned ∧ x.percent ≤ 100) ∧
        List.Chain' (fun a b => a.percent ≤ b.percent) st'.snaps) →
      s ∈ st'.snaps →
      0 ≤ s.scanned ∧ 0 ≤ s.matched ∧ 0 ≤ s.moved ∧ 0 ≤ s.skippedDuplicates ∧
      0 ≤ s.errors ∧ s.matched ≤ s.scanned ∧ 0 ≤ s.percent ∧ s.percent ≤ 100 ∧
      List.Chain' (fun a b => a.percent ≤ b.percent) st'.snaps := by
    intro st' ⟨hb, hchain⟩ hmem
    obtain ⟨q1, q2⟩ := hb s hmem
    exact ⟨Nat.zero_le _, Nat.zero_le _, Nat.zero_le _, Nat.zero_le _, Nat.zero_le _,
      q1, Nat.zero_le _, q2, hchain⟩
  cases ci with
  | none =>
    rw [runLoop_none] at hs ⊢
    exact key _ (SnapInv_finishDone _ (foldl_SnapInv S dry cands _ (SnapInv_init dest0))) hs
  | some n =>
    by_cases hlt : n < cands.length
    · rw [runLoop_some_lt S dry n cands _ hlt] at hs ⊢
      exact key _ (SnapInv_finishCancel _ (foldl_SnapInv S dry _ _ (SnapInv_init dest0))) hs
    · rw [runLoop_some_ge S dry n cands _ (by omega)] at hs ⊢
      exact key _ (SnapInv_finishDone _ (foldl_SnapInv S dry cands _ (SnapInv_init dest0))) hs

/-- Witness for `snapshot_invariants` at a concrete one-candidate run. -/
theorem snapshot_invariants_witness :
    0 ≤ (⟨"done", none, 1, 1, 1, 0, 0, 100⟩ : Snap).scanned ∧
    0 ≤ (⟨"done", none, 1, 1, 1, 0, 0, 100⟩ : Snap).matched ∧
    0 ≤ (⟨"done", none, 1, 1, 1, 0, 0, 100⟩ : Snap).moved ∧
    0 ≤ (⟨"done", none, 1, 1, 1, 0, 0, 100⟩ : Snap).skippedDuplicates ∧
    0 ≤ (⟨"done", none, 1, 1, 1, 0, 0, 100⟩ : Snap).errors ∧
    (⟨"done", none, 1, 1, 1, 0, 0, 100⟩ : Snap).matched ≤
      (⟨"done", none, 1, 1, 1, 0, 0, 100⟩ : Snap).scanned ∧
    0 ≤ (⟨"done", none, 1, 1, 1, 0, 0, 100⟩ : Snap).percent ∧
    (⟨"done", none, 1, 1, 1, 0, 0, 100⟩ : Snap).percent ≤ 100 ∧
    List.Chain' (fun a b => a.percent ≤ b.percent)
      (runEngine ⟨["612"], false, none, [⟨[], "IMG_7612.jpg", 5⟩], []⟩).snaps :=
  snapshot_invariants ⟨["612"], false, none, [⟨[], "IMG_7612.jpg", 5⟩], []⟩
    ⟨"done", none, 1, 1, 1, 0, 0, 100⟩ (by decide)

/-! ## Dedup idempotence machinery -/

theorem finishDone_outcomes (st : RunSt) : (finishDone st).outcomes = st.outcomes := rfl

theorem finishDone_dest (st : RunSt) : (finishDone st).dest = st.dest := rfl

theorem finishDone_moved (st : RunSt) : (finishDone st).moved = st.moved := rfl

/-- The outcome list produced by folding over a candidate list. -/
def runOutcomes (S : List String) (dry : Bool) : List Cand → RunSt → List Outcome
  | [], _ => []
  | c :: cs, st => ocOf S st c :: runOutcomes S dry cs (stepCand S dry st c)

theorem foldl_outcomes (S : List String) (dry : Bool) :
    ∀ (cs : List Cand) (st : RunSt),
      (List.foldl (stepCand S dry) st cs).outcomes =
        st.outcomes ++ runOutcomes S dry cs st := by
  intro cs
  induction cs with
  | nil => intro st; simp [runOutcomes]
  | cons c cs ih =>
    intro st
    rw [List.foldl_cons, ih, stepCand_outcomes, runOutcomes]
    simp

theorem runOutcomes_append (S : List String) (dry : Bool) :
    ∀ (xs ys : List Cand) (st : RunSt),
      runOutcomes S dry (xs ++ ys) st =
        runOutcomes S dry xs st ++
          runOutcomes S dry ys (List.foldl (stepCand S dry) st xs) := by
  intro xs
  induction xs with
  | nil => intro ys st; simp [runOutcomes]
  | cons x xs ih =>
    intro ys st
    rw [List.cons_append, runOutcomes, runOutcomes, ih, List.foldl_cons, List.cons_append]

theorem runOutcomes_length (S : List String) (dry : Bool) :
    ∀ (cs : List Cand) (st : RunSt), (runOutcomes S dry cs st).length = cs.length := by
  intro cs
  induction cs with
  | nil => intro st; rfl
  | cons c cs ih => intro st; rw [runOutcomes]; simp [ih]

theorem ocOf_moved (S : List String) (st : RunSt) (c : Cand) (f : String)
    (h : ocOf S st c = Outcome.moved f) :
    matcher S c.name = true ∧ c.content ∉ dirDigests st.view c.dir := by
  unfold ocOf at h
  by_cases hm : matcher S c.name
  · by_cases hd : c.content ∈ dirDigests st.view c.dir
    · rw [if_pos hm, if_pos (by simp [hd])] at h
      exact absurd h (by simp)
    · exact ⟨hm, hd⟩
  · rw [if_neg hm] at h
    exact absurd h (by simp)

theorem ocOf_dup (S : List String) (st : RunSt) (c : Cand)
    (hm : matcher S c.name = true) (hd : c.content ∈ dirDigests st.view c.dir) :
    ocOf S st c = Outcome.skippedDup := by
  unfold ocOf
  rw [if_pos hm, if_pos (by simp [hd])]

theorem stepCand_view_moved (S : List String) (dry : Bool) (st : RunSt) (c : Cand)
    (hm : matcher S c.name = true) (hd : c.content ∉ dirDigests st.view c.dir) :
    (stepCand S dry st c).view =
      st.view ++ [⟨c.dir, resolveName (occupiedNames st.view c.dir) c.name, c.content⟩] := by
  unfold stepCand
  rw [if_pos hm, if_neg (by simp [hd])]

theorem stepCand_view_same (S : List String) (dry : Bool) (st : RunSt) (c : Cand)
    (h : matcher S c.name = false ∨ c.content ∈ dirDigests st.view c.dir) :
    (stepCand S dry st c).view = st.view := by
  unfold stepCand
  by_cases hm : matcher S c.name
  · rcases h with hmf | hd
    · rw [hm] at hmf; exact absurd hmf (by simp)
    · rw [if_pos hm, if_pos (by simp [hd])]
  · rw [if_neg hm]

theorem stepCand_moved_same (S : List String) (dry : Bool) (st : RunSt) (c : Cand)
    (h : matcher S c.name = false ∨ c.content ∈ dirDigests st.view c.dir) :
    (stepCand S dry st c).moved = st.moved := by
  unfold stepCand
  by_cases hm : matcher S c.name
  · rcases h with hmf | hd
    · rw [hm] at hmf; exact absurd hmf (by simp)
    · rw [if_pos hm, if_pos (by simp [hd])]
  · rw [if_neg hm]

theorem dirDigests_append (v l : List DFile) (d : List String) :
    dirDigests (v ++ l) d = dirDigests v d ++ dirDigests l d := by
  simp [dirDigests, List.filter_append]

theorem mem_dirDigests_append_left {x : Nat} {v : List DFile} (l : List DFile)
    (d : List String) (h : x ∈ dirDigests v d) : x ∈ dirDigests (v ++ l) d := by
  rw [dirDigests_append]
  exact List.mem_append_left _ h

theorem stepCand_view_extend (S : List String) (dry : Bool) (st : RunSt) (c : Cand) :
    ∃ l, (stepCand S dry st c).view = st.view ++ l := by
  by_cases hm : matcher S c.name
  · by_cases hd : c.content ∈ dirDigests st.view c.dir
    · exact ⟨[], by rw [stepCand_view_same S dry st c (Or.inr hd)]; simp⟩
    · exact ⟨_, stepCand_view_moved S dry st c hm hd⟩
  · refine ⟨[], ?_⟩
    rw [stepCand_view_same S dry st c (Or.inl (by simpa using hm))]
    simp

theorem foldl_view_extend (S : List String) (dry : Bool) :
    ∀ (cs : List Cand) (st : RunSt),
      ∃ l, (List.foldl (stepCand S dry) st cs).view = st.view ++ l := by
  intro cs
  induction cs with
  | nil => intro st; exact ⟨[], by simp⟩
  | cons c cs ih =>
    intro st
    rw [List.foldl_cons]
    obtain ⟨l₁, h₁⟩ := ih (stepCand S dry st c)
    obtain ⟨l₂, h₂⟩ := stepCand_view_extend S dry st c
    exact ⟨l₂ ++ l₁, by rw [h₁, h₂, List.append_assoc]⟩

/-- Every matched candidate's content ends up recorded in the final view. -/
theorem foldl_records (S : List String) (dry : Bool) :
    ∀ (cs : List Cand) (st : RunSt) (c : Cand), c ∈ cs → matcher S c.name = true →
      c.content ∈ dirDigests (List.foldl (stepCand S dry) st cs).view c.dir := by
  intro cs
  induction cs with
  | nil => intro st c hc _; simp at hc
  | cons c0 cs ih =>
    intro st c hc hm
    rw [List.foldl_cons]
    rcases List.mem_cons.mp hc with rfl | htail
    · obtain ⟨l, hl⟩ := foldl_view_extend S dry cs (stepCand S dry st c)
      rw [hl]
      apply mem_dirDigests_append_left
      by_cases hd : c.content ∈ dirDigests st.view c.dir
      · rw [stepCand_view_same S dry st c (Or.inr hd)]
        exact hd
      · rw [stepCand_view_moved S dry st c hm hd, dirDigests_append]
        apply List.mem_append_right
        simp [dirDigests]
    · exact ih (stepCand S dry st c0) c htail hm

theorem stepCand_destview (S : List String) (st : RunSt) (c : Cand)
    (h : st.dest = st.view) :
    (stepCand S false st c).dest = (stepCand S false st c).view := by
  unfold stepCand
  by_cases hm : matcher S c.name
  · rw [if_pos hm]
    by_cases hd : c.content ∈ dirDigests st.view c.dir
    · rw [if_pos (by simp [hd])]
      simpa using h
    · rw [if_neg (by simp [hd])]
      simp [h]
  · rw [if_neg hm]
    simpa using h

theorem foldl_destview (S : List String) :
    ∀ (cs : List Cand) (st : RunSt), st.dest = st.view →
      (List.foldl (stepCand S false) st cs).dest =
        (List.foldl (stepCand S false) st cs).view := by
  intro cs
  induction cs with
  | nil => intro st h; exact h
  | cons c cs ih =>
    intro st h
    rw [List.foldl_cons]
    exact ih _ (stepCand_destview S st c h)

/-- When every matched candidate's content is already in the view, the fold
changes nothing: everything is skipped or rejected. -/
theorem foldl_allDup (S : List String) (dry : Bool) :
    ∀ (cs : List Cand) (st : RunSt),
      (∀ c ∈ cs, matcher S c.name = true → c.content ∈ dirDigests st.view c.dir) →
      (List.foldl (stepCand S dry) st cs).view = st.view ∧
      (List.foldl (stepCand S dry) st cs).moved = st.moved ∧
      runOutcomes S dry cs st =
        cs.map (fun c =>
          if matcher S c.name then Outcome.skippedDup else Outcome.rejected) := by
  intro cs
  induction cs with
  | nil => intro st _; exact ⟨rfl, rfl, rfl⟩
  | cons c cs ih =>
    intro st hall
    have hcase : matcher S c.name = false ∨ c.content ∈ dirDigests st.view c.dir := by
      by_cases hm : matcher S c.name
      · exact Or.inr (hall c (List.mem_cons_self c cs) hm)
      · exact Or.inl (by simpa using hm)
    have hview := stepCand_view_same S dry st c hcase
    have hmoved := stepCand_moved_same S dry st c hcase
    obtain ⟨t1, t2, t3⟩ := ih (stepCand S dry st c) (by
      intro c' hc' hm'
      rw [hview]
      exact hall c' (List.mem_cons_of_mem _ hc') hm')
    rw [List.foldl_cons] at *
    refine ⟨t1.trans hview, t2.trans hmoved, ?_⟩
    rw [runOutcomes, t3, List.map_cons]
    congr 1
    unfold ocOf
    by_cases hm : matcher S c.name
    · have hd : c.content ∈ dirDigests st.view c.dir := by
        rcases hcase with hmf | hd
        · rw [hm] at hmf; exact absurd hmf (by simp)
        · exact hd
      rw [if_pos hm, if_pos (by simp [hd]), if_pos hm]
    · rw [if_neg hm, if_neg hm]

theorem runOutcomes_moved_matcher (S : List String) (dry : Bool) :
    ∀ (cs : List Cand) (st : RunSt) (i : Nat) (f : String),
      (runOutcomes S dry cs st)[i]? = some (Outcome.moved f) →
      ∃ c, cs[i]? = some c ∧ matcher S c.name = true := by
  intro cs
  induction cs with
  | nil => intro st i f h; simp [runOutcomes] at h
  | cons c cs ih =>
    intro st i f h
    cases i with
    | zero =>
      rw [runOutcomes] at h
      simp only [List.getElem?_cons_zero, Option.some.injEq] at h
      obtain ⟨hm, _⟩ := ocOf_moved S st c f h
      exact ⟨c, by simp, hm⟩
    | succ i =>
      rw [runOutcomes] at h
      simp only [List.getElem?_cons_succ] at h
      obtain ⟨c', hc', hm'⟩ := ih (stepCand S dry st c) i f h
      exact ⟨c', by simpa using hc', hm'⟩

/-- C3: Running the engine twice on the same inputs is idempotent with
respect to content: every candidate moved by the first (real) run is
reported `SkippedDuplicate` by a second run started on the first run's
resulting destination, the second run moves nothing, and a run's own moves
are visible to later duplicate checks within the same run. -/
theorem dedup_idempotent (S : List String) (cands : List Cand) (dest0 : List DFile) :
    (∀ (i : Nat) (f : String),
      (runEngine ⟨S, false, none, cands, dest0⟩).outcomes[i]? =
        some (Outcome.moved f) →
      (runEngine ⟨S, false, none, cands,
        (runEngine ⟨S, false, none, cands, dest0⟩).dest⟩).outcomes[i]? =
        some Outcome.skippedDup) ∧
    (runEngine ⟨S, false, none, cands,
      (runEngine ⟨S, false, none, cands, dest0⟩).dest⟩).moved = 0 ∧
    (∀ (pre : List Cand) (c : Cand) (mid : List Cand) (c' : Cand) (post : List Cand)
        (f : String), cands = pre ++ c :: (mid ++ c' :: post) →
      (runEngine ⟨S, false, none, cands, dest0⟩).outcomes[pre.length]? =
        some (Outcome.moved f) →
      c'.dir = c.dir → c'.content = c.content → matcher S c'.name = true →
      (runEngine ⟨S, false, none, cands, dest0⟩).outcomes[pre.length + 1 + mid.length]? =
        some Outcome.skippedDup) := by
  have e1out : (runEngine ⟨S, false, none, cands, dest0⟩).outcomes
      = runOutcomes S false cands (initSt dest0) := by
    simp only [runEngine]
    rw [runLoop_none, finishDone_outcomes, foldl_outcomes]
    rfl
  have key2 : ∀ D : List DFile,
      D = (List.foldl (stepCand S false) (initSt dest0) cands).view →
      (runEngine ⟨S, false, none, cands, D⟩).outcomes =
        cands.map (fun c =>
          if matcher S c.name then Outcome.skippedDup else Outcome.rejected) ∧
      (runEngine ⟨S, false, none, cands, D⟩).moved = 0 := by
    intro D hD
    have hall2 : ∀ c ∈ cands, matcher S c.name = true →
        c.content ∈ dirDigests (initSt D).view c.dir := by
      intro c hc hm
      show c.content ∈ dirDigests D c.dir
      rw [hD]
      exact foldl_records S false cands (initSt dest0) c hc hm
    obtain ⟨hv2, hm2, ho2⟩ := foldl_allDup S false cands (initSt D) hall2
    constructor
    · simp only [runEngine]
      rw [runLoop_none, finishDone_outcomes, foldl_outcomes, ho2]
      rfl
    · simp only [runEngine]
      rw [runLoop_none, finishDone_moved, hm2]
      rfl
  have hDeq : (runEngine ⟨S, false, none, cands, dest0⟩).dest
      = (List.foldl (stepCand S false) (initSt dest0) cands).view := by
    simp only [runEngine]
    rw [runLoop_none, finishDone_dest]
    exact foldl_destview S cands (initSt dest0) rfl
  obtain ⟨ho2, hm2⟩ := key2 _ hDeq
  refine ⟨?_, hm2, ?_⟩
  · intro i f hi
    rw [e1out] at hi
    obtain ⟨c, hci, hcm⟩ := runOutcomes_moved_matcher S false cands (initSt dest0) i f hi
    rw [ho2, List.getElem?_map, hci]
    simp [hcm]
  · intro pre c mid c' post f hsplit h1 hdir hcont hm'
    rw [e1out, hsplit] at h1 ⊢
    rw [runOutcomes_append] at h1 ⊢
    rw [List.getElem?_append_right (by simp [runOutcomes_length])] at h1
    rw [List.getElem?_append_right (by rw [runOutcomes_length]; omega)]
    rw [runOutcomes_length] at h1 ⊢
    rw [Nat.sub_self] at h1
    rw [runOutcomes] at h1 ⊢
    rw [List.getElem?_cons_zero, Option.some.injEq] at h1
    obtain ⟨hm, hd⟩ := ocOf_moved S _ c f h1
    have hidx : pre.length + 1 + mid.length - pre.length = mid.length + 1 := by omega
    rw [hidx, List.getElem?_cons_succ, runOutcomes_append,
      List.getElem?_append_right (by simp [runOutcomes_length]),
      runOutcomes_length, Nat.sub_self, runOutcomes, List.getElem?_cons_zero]
    have hviewC := stepCand_view_moved S false
      (List.foldl (stepCand S false) (initSt dest0) pre) c hm hd
    have hmemC : c.content ∈ dirDigests
        (stepCand S false (List.foldl (stepCand S false) (initSt dest0) pre) c).view
        c.dir := by
      rw [hviewC, dirDigests_append]
      apply List.mem_append_right
      simp [dirDigests]
    obtain ⟨l, hl⟩ := foldl_view_extend S false mid
      (stepCand S false (List.foldl (stepCand S false) (initSt dest0) pre) c)
    have hmemMid : c'.content ∈ dirDigests
        (List.foldl (stepCand S false)
          (stepCand S false (List.foldl (stepCand S false) (initSt dest0) pre) c)
          mid).view c'.dir := by
      rw [hl, hcont, hdir]
      exact mem_dirDigests_append_left l c.dir hmemC
    rw [ocOf_dup S _ c' hm' hmemMid]

/-- Witness for `dedup_idempotent`: a file moved by a first run is skipped
as a duplicate by the second run. -/
theorem dedup_idempotent_witness :
    (runEngine ⟨["7612"], false, none, [⟨[], "IMG_7612.jpg", 5⟩],
      (runEngine ⟨["7612"], false, none, [⟨[], "IMG_7612.jpg", 5⟩], []⟩).dest⟩).outcomes[0]? =
      some Outcome.skippedDup :=
  (dedup_idempotent ["7612"] [⟨[], "IMG_7612.jpg", 5⟩] []).1 0 "IMG_7612.jpg" (by decide)

/-! ## Cancellation -/

theorem finishCancel_scanned (st : RunSt) : (finishCancel st).scanned = st.scanned := rfl

theorem finishCancel_dest (st : RunSt) : (finishCancel st).dest = st.dest := rfl

theorem finishCancel_srcMoved (st : RunSt) : (finishCancel st).srcMoved = st.srcMoved := rfl

theorem finishCancel_moverCalls (st : RunSt) :
    (finishCancel st).moverCalls = st.moverCalls := rfl

theorem finishDone_scanned (st : RunSt) : (finishDone st).scanned = st.scanned := rfl

theorem finishDone_srcMoved (st : RunSt) : (finishDone st).srcMoved = st.srcMoved := rfl

theorem finishDone_moverCalls (st : RunSt) :
    (finishDone st).moverCalls = st.moverCalls := rfl

theorem finalSnap_finishDone (st : RunSt) :
    finalSnap (finishDone st) = mkSnap "done" none st := by
  simp only [finalSnap, finishDone]
  rw [List.getLastD_eq_getLast?, List.getLast?_concat]
  rfl

theorem finalSnap_finishCancel (st : RunSt) :
    finalSnap (finishCancel st) = mkSnap "cancelled" none st := by
  simp only [finalSnap, finishCancel]
  rw [List.getLastD_eq_getLast?, List.getLast?_concat]
  rfl

theorem foldl_scanned (S : List String) (dry : Bool) :
    ∀ (cs : List Cand) (st : RunSt),
      (List.foldl (stepCand S dry) st cs).scanned = st.scanned + cs.length := by
  intro cs
  induction cs with
  | nil => intro st; simp
  | cons c cs ih =>
    intro st
    rw [List.foldl_cons, ih, stepCand_scanned]
    simp
    omega

/-- The Cancel button's backend invocation, from `App.tsx` (`cancel`):
the command name and its (empty) argument list. -/
def cancelInvocation : String × List (String × String) := ("cancel_move", [])

/-- Modelled from the spec: the `cancel_move` command sets the active run's
cancellation flag (`some _ ↦ some true`); it is a no-op when no run is
active (`none`). -/
def cancelMove : Option Bool → Option Bool
  | none => none
  | some _ => some true

/-- C5: Every run terminates in phase `done` or `cancelled` and emits a
final snapshot; when cancellation is observed between candidates the
Orchestrator stops iterating the Scanner (exactly `n` candidates scanned),
transitions to `cancelled`, and performs no filesystem mutation beyond
what the run had already done (already-moved files are not rolled back);
the cancellation invocation carries no parameters and is a no-op when no
run is active. -/
theorem run_termination_cancellation (inp : RunInput) :
    ((finalSnap (runEngine inp)).phase = "done" ∨
      (finalSnap (runEngine inp)).phase = "cancelled") ∧
    (runEngine inp).snaps ≠ [] ∧
    (∀ n : Nat, inp.cancelAfter = some n → n < inp.cands.length →
      (finalSnap (runEngine inp)).phase = "cancelled" ∧
      (runEngine inp).scanned = n ∧
      (runEngine inp).dest =
        (runEngine ⟨inp.suffixes, inp.dryRun, none, inp.cands.take n, inp.dest0⟩).dest ∧
      (runEngine inp).srcMoved =
        (runEngine ⟨inp.suffixes, inp.dryRun, none, inp.cands.take n, inp.dest0⟩).srcMoved ∧
      (runEngine inp).moverCalls =
        (runEngine ⟨inp.suffixes, inp.dryRun, none, inp.cands.take n,
          inp.dest0⟩).moverCalls) ∧
    cancelInvocation.2 = [] ∧
    cancelMove none = none := by
  obtain ⟨S, dry, ci, cands, dest0⟩ := inp
  simp only [runEngine]
  refine ⟨?_, ?_, ?_, rfl, rfl⟩
  · cases ci with
    | none =>
      rw [runLoop_none, finalSnap_finishDone]
      exact Or.inl rfl
    | some n =>
      by_cases hlt : n < cands.length
      · rw [runLoop_some_lt S dry n cands _ hlt, finalSnap_finishCancel]
        exact Or.inr rfl
      · rw [runLoop_some_ge S dry n cands _ (by omega), finalSnap_finishDone]
        exact Or.inl rfl
  · cases ci with
    | none =>
      rw [runLoop_none]
      simp [finishDone]
    | some n =>
      by_cases hlt : n < cands.length
      · rw [runLoop_some_lt S dry n cands _ hlt]
        simp [finishCancel]
      · rw [runLoop_some_ge S dry n cands _ (by omega)]
        simp [finishDone]
  · intro n hci hlt
    subst hci
    rw [runLoop_some_lt S dry n cands _ hlt, runLoop_none]
    refine ⟨by rw [finalSnap_finishCancel]; rfl, ?_, rfl, rfl, rfl⟩
    rw [finishCancel_scanned, foldl_scanned]
    simp [initSt, List.length_take]
    omega

/-- Witness for `run_termination_cancellation` at a two-candidate run
cancelled after one candidate. -/
theorem run_termination_cancellation_witness :
    (finalSnap (runEngine ⟨["612"], false, some 1,
      [⟨[], "a612.jpg", 1⟩, ⟨[], "b612.jpg", 2⟩], []⟩)).phase = "cancelled" ∧
    (runEngine ⟨["612"], false, some 1,
      [⟨[], "a612.jpg", 1⟩, ⟨[], "b612.jpg", 2⟩], []⟩).scanned = 1 ∧
    (runEngine ⟨["612"], false, some 1,
      [⟨[], "a612.jpg", 1⟩, ⟨[], "b612.jpg", 2⟩], []⟩).dest =
      (runEngine ⟨["612"], false, none,
        [⟨[], "a612.jpg", 1⟩, ⟨[], "b612.jpg", 2⟩].take 1, []⟩).dest ∧
    (runEngine ⟨["612"], false, some 1,
      [⟨[], "a612.jpg", 1⟩, ⟨[], "b612.jpg", 2⟩], []⟩).srcMoved =
      (runEngine ⟨["612"], false, none,
        [⟨[], "a612.jpg", 1⟩, ⟨[], "b612.jpg", 2⟩].take 1, []⟩).srcMoved ∧
    (runEngine ⟨["612"], false, some 1,
      [⟨[], "a612.jpg", 1⟩, ⟨[], "b612.jpg", 2⟩], []⟩).moverCalls =
      (runEngine ⟨["612"], false, none,
        [⟨[], "a612.jpg", 1⟩, ⟨[], "b612.jpg", 2⟩].take 1, []⟩).moverCalls :=
  (run_termination_cancellation ⟨["612"], false, some 1,
    [⟨[], "a612.jpg", 1⟩, ⟨[], "b612.jpg", 2⟩], []⟩).2.2.1 1 rfl (by decide)

/-! ## UI layer (translated from `src/App.tsx`)

The React shell keeps `running`, the latest `progress` event and the
`logLines` list as state.  `addLog` truncates to the last 500 lines before
appending; the `progress` listener clears `running` and logs a summary on
phase `"done"`; the Start button is disabled while running or while any
input is blank; Start forwards `suffixInput.trim()` to `start_move`. -/

/-- JavaScript string truthiness/trim whitespace. -/
def isWS (c : Char) : Bool :=
  c = ' ' || c = '\t' || c = '\n' || c = '\r' || c = '\x0b' || c = '\x0c'

/-- JavaScript `String.prototype.trim()`: strip leading and trailing
whitespace. -/
def jsTrim (s : String) : String :=
  String.mk (((s.data.dropWhile isWS).reverse.dropWhile isWS).reverse)

/-- The payload of the `start_move` invocation. -/
structure StartArgs where
  source : String
  dest : String
  suffixInput : String
  dryRun : Bool
  verbose : Bool
deriving DecidableEq, Repr

/-- The Start action's backend invocation, from `App.tsx` (`start`): the
command name with the picked source and destination paths, the suffix text
trimmed (`suffixInput.trim()`), and the two toggles. -/
def startInvocation (sourcePath destPath suffixInput : String)
    (dryRun verbose : Bool) : String × StartArgs :=
  ("start_move", ⟨sourcePath, destPath, jsTrim suffixInput, dryRun, verbose⟩)

/-- Modelled from the spec: the command-line entry (missing from the
visible sources) passes the same parameter set — source, dest, the raw
suffix text, dryRun, verbose — to the engine. -/
def cliInvocation (source dest suffixes : String) (dryRun verbose : Bool) :
    String × StartArgs :=
  ("start_move", ⟨source, dest, suffixes, dryRun, verbose⟩)

/-- The Start button's disabled predicate, from `App.tsx`:
`running || !sourcePath || !destPath || !suffixInput.trim()`. -/
def startDisabled (running : Bool) (sourcePath destPath suffixInput : String) : Bool :=
  running || sourcePath == "" || destPath == "" || jsTrim suffixInput == ""

/-- The Start button: clicking invokes `start_move` only when enabled. -/
def startClick (running : Bool) (sourcePath destPath suffixInput : String)
    (dryRun verbose : Bool) : Option (String × StartArgs) :=
  if startDisabled running sourcePath destPath suffixInput then none
  else some (startInvocation sourcePath destPath suffixInput dryRun verbose)

/-- The progress event payload, from the `ProgressEvent` interface in
`App.tsx`. -/
structure ProgressEvent where
  phase : String
  currentFile : Option String
  scanned : Nat
  matched : Nat
  moved : Nat
  skippedDuplicates : Nat
  errors : Nat
  percent : Nat
deriving DecidableEq, Repr

/-- The UI state relevant to the progress listener. -/
structure UISt where
  running : Bool
  progress : ProgressEvent
  logLines : List String
deriving DecidableEq, Repr

/-- `prev.slice(-500)` from `App.tsx`: the most recent `n` entries. -/
def sliceLast {α : Type} (l : List α) (n : Nat) : List α := l.drop (l.length - n)

/-- `addLog` from `App.tsx`: keep the last 500 lines, append the new one. -/
def addLog (lines : List String) (line : String) : List String :=
  sliceLast lines 500 ++ [line]

/-- The completion summary line logged by the progress listener. -/
def doneSummary (ev : ProgressEvent) : String :=
  "Done. Moved: " ++ natStr ev.moved ++ ", Duplicates skipped: " ++
    natStr ev.skippedDuplicates ++ ", Errors: " ++ natStr ev.errors

/-- The `progress` event listener from `App.tsx`: store the event; on
phase `"done"` clear the running flag and log the completion summary; with
verbose on and a truthy `currentFile` also log that file.  The returned
boolean records whether the `"done"` branch ran. -/
def onProgress (verbose : Bool) (st : UISt) (ev : ProgressEvent) : UISt × Bool :=
  let st1 : UISt := { st with progress := ev }
  let st2 : UISt :=
    if ev.phase = "done" then
      { st1 with running := false,
                 logLines := addLog st1.logLines (doneSummary ev) }
    else st1
  let st3 : UISt :=
    match ev.currentFile with
    | some f =>
      if f ≠ "" ∧ verbose = true then
        { st2 with logLines := addLog st2.logLines f }
      else st2
    | none => st2
  (st3, ev.phase == "done")

/-! ## UI claim theorems -/

/-- C7 counterexample: the GUI's Start action does not forward the raw
suffix text the user entered — for the input `" 7612"` the engine receives
`"7612"`. -/
theorem startInvocation_not_raw :
    (startInvocation "/src" "/dst" " 7612" false false).2.suffixInput ≠ " 7612" := by
  decide

/-- C7 (amended): the GUI's Start action and the command-line entry pass
the same five-parameter set (source, dest, suffixes, dryRun, verbose) to
the engine's run invocation; the GUI forwards the suffix text trimmed of
leading and trailing whitespace (`suffixInput.trim()`), not the raw text. -/
theorem startInvocation_params (s d x : String) (dr v : Bool) :
    startInvocation s d x dr v = cliInvocation s d (jsTrim x) dr v ∧
    (startInvocation s d x dr v).1 = "start_move" ∧
    (startInvocation s d x dr v).2.source = s ∧
    (startInvocation s d x dr v).2.dest = d ∧
    (startInvocation s d x dr v).2.suffixInput = jsTrim x ∧
    (startInvocation s d x dr v).2.dryRun = dr ∧
    (startInvocation s d x dr v).2.verbose = v :=
  ⟨rfl, rfl, rfl, rfl, rfl, rfl, rfl⟩

/-- A freshly appended line survives the 500-line truncation. -/
theorem mem_sliceLast_append {α : Type} (l : List α) (x : α) (n : Nat)
    (hn : 1 ≤ n) : x ∈ sliceLast (l ++ [x]) n := by
  unfold sliceLast
  rw [List.drop_append_of_le_length (by simp; omega)]
  exact List.mem_append_right _ (by simp)

/-- C8: For every progress event received by the listener, the done branch
— clearing the running flag and appending the completion summary — runs if
and only if the event's phase equals `"done"`; an event with any other
phase, including `"cancelled"`, leaves the running flag unchanged. -/
theorem ui_done_handling (v : Bool) (st : UISt) (ev : ProgressEvent) :
    ((onProgress v st ev).2 = true ↔ ev.phase = "done") ∧
    (ev.phase = "done" →
      (onProgress v st ev).1.running = false ∧
      doneSummary ev ∈ (onProgress v st ev).1.logLines) ∧
    (ev.phase ≠ "done" → (onProgress v st ev).1.running = st.running) := by
  unfold onProgress
  dsimp only
  refine ⟨by simp, ?_, ?_⟩
  · intro hph
    rw [if_pos hph]
    cases hcf : ev.currentFile with
    | none =>
      exact ⟨rfl, List.mem_append_right _ (by simp)⟩
    | some f =>
      dsimp only
      by_cases hfv : f ≠ "" ∧ v = true
      · rw [if_pos hfv]
        exact ⟨rfl, List.mem_append_left _ (mem_sliceLast_append _ _ _ (by omega))⟩
      · rw [if_neg hfv]
        exact ⟨rfl, List.mem_append_right _ (by simp)⟩
  · intro hph
    rw [if_neg hph]
    cases hcf : ev.currentFile with
    | none => rfl
    | some f =>
      dsimp only
      by_cases hfv : f ≠ "" ∧ v = true
      · rw [if_pos hfv]
      · rw [if_neg hfv]

/-- Witness for `ui_done_handling`: a `"done"` event clears the running
flag. -/
theorem ui_done_handling_witness :
    (onProgress false ⟨true, ⟨"idle", none, 0, 0, 0, 0, 0, 0⟩, []⟩
        ⟨"done", none, 3, 2, 1, 1, 0, 100⟩).1.running = false ∧
    doneSummary ⟨"done", none, 3, 2, 1, 1, 0, 100⟩ ∈
      (onProgress false ⟨true, ⟨"idle", none, 0, 0, 0, 0, 0, 0⟩, []⟩
        ⟨"done", none, 3, 2, 1, 1, 0, 100⟩).1.logLines :=
  (ui_done_handling false ⟨true, ⟨"idle", none, 0, 0, 0, 0, 0, 0⟩, []⟩
    ⟨"done", none, 3, 2, 1, 1, 0, 100⟩).2.1 rfl

/-- C9: the Start button is disabled exactly while a run is active or an
input is blank (after trimming); hence a click never invokes `start_move`
while running or with an empty after-trim suffix string. -/
theorem start_button_guard (r : Bool) (s d x : String) (dr v : Bool) :
    (startDisabled r s d x = false ↔
      (r = false ∧ s ≠ "" ∧ d ≠ "" ∧ jsTrim x ≠ "")) ∧
    (∀ inv, startClick r s d x dr v = some inv →
      r = false ∧ inv.2.suffixInput ≠ "") := by
  have hiff : startDisabled r s d x = false ↔
      (r = false ∧ s ≠ "" ∧ d ≠ "" ∧ jsTrim x ≠ "") := by
    simp [startDisabled, and_assoc]
  refine ⟨hiff, ?_⟩
  intro inv hinv
  unfold startClick at hinv
  by_cases hdis : startDisabled r s d x = true
  · rw [if_pos hdis] at hinv
    exact absurd hinv (by simp)
  · have hfalse : startDisabled r s d x = false := by
      cases h : startDisabled r s d x
      · rfl
      · exact absurd h hdis
    rw [if_neg hdis] at hinv
    obtain ⟨h1, _, _, h4⟩ := hiff.mp hfalse
    refine ⟨h1, ?_⟩
    have : inv.2.suffixInput = jsTrim x := by
      rw [← Option.some.inj hinv]
      rfl
    rw [this]
    exact h4

/-- Witness for `start_button_guard`: an enabled click carries a non-empty
trimmed suffix. -/
theorem start_button_guard_witness :
    false = false ∧
    ((startInvocation "/a" "/b" "7612" false true).2.suffixInput ≠ "") :=
  (start_button_guard false "/a" "/b" "7612" false true).2
    (startInvocation "/a" "/b" "7612" false true) (by decide)

/-- C10: after every `addLog` the log holds at most 501 lines: the retained
part is a suffix of the previous list (its most recent entries, order
preserved) of length `min 500 (previous length)`, with the new line
appended after it. -/
theorem addLog_truncation (lines : List String) (line : String) :
    (addLog lines line).length ≤ 501 ∧
    ∃ t, t <:+ lines ∧ t.length = min 500 lines.length ∧
      addLog lines line = t ++ [line] := by
  refine ⟨?_, lines.drop (lines.length - 500),
    ⟨lines.take (lines.length - 500), List.take_append_drop _ _⟩, ?_, rfl⟩
  · simp [addLog, sliceLast]
    omega
  · simp [List.length_drop]
    omega

end FrameMover
